import Mathlib
/-!
Shallow embedding of the keen-eye coverage-reporting scripts.

Each Python script is translated into executable Lean definitions:
`analyze_all_coverage.py` (functions `analyze_coverage`, `analyzeAllMain`),
`analyze_project_coverage.py` (`analyze_project_coverage`),
`check_coverage.py` (`check_coverage`), `check_coverage_detailed.py`
(`check_coverage_detailed`), `find_uncovered.py` (`find_uncovered`) and
`analyze_core_detailed.py` (`analyze_core_detailed_overall`).

Python floats are modelled as exact rationals; Python's stable `sorted`
is modelled by `List.insertionSort`, which is stable for the key-based
preorders used here (stability is proved below as a filter lemma).
Uncaught Python exceptions are modelled by `Except.error`; a caught /
skipped condition by an `Option` or an error list.  Python dicts are
modelled by insertion-ordered association lists with first-match update,
matching dict iteration order.
-/

/-- Character-list prefix test (used to model Python's `in` on strings). -/
def leadsWith : List Char → List Char → Bool
  | [], _ => true
  | _ :: _, [] => false
  | a :: as, b :: bs => a = b && leadsWith as bs

/-- Does `needle` occur as a contiguous run inside `hay`? -/
def hasSub (needle : List Char) : List Char → Bool
  | [] => leadsWith needle []
  | b :: bs => leadsWith needle (b :: bs) || hasSub needle bs

/-- Python's `needle in hay` substring test. -/
def strContains (hay needle : String) : Bool :=
  hasSub needle.data hay.data

/-- Drop `n` elements (structural helper for `replaceFuel`). -/
def dropN : Nat → List Char → List Char
  | 0, l => l
  | _ + 1, [] => []
  | n + 1, _ :: cs => dropN n cs

/-- Replace every non-overlapping occurrence of `old` (assumed nonempty at
all call sites) by `new`, left to right — Python's `str.replace`.  The
fuel argument makes the recursion structural so the kernel can evaluate
it; `fuel = length of the list` always suffices. -/
def replaceFuel (old new : List Char) : Nat → List Char → List Char
  | 0, l => l
  | _ + 1, [] => []
  | fuel + 1, c :: cs =>
    if leadsWith old (c :: cs) && !old.isEmpty then
      new ++ replaceFuel old new fuel (dropN (old.length - 1) cs)
    else
      c :: replaceFuel old new fuel cs

/-- Python's `s.replace(old, new)`. -/
def strReplace (s old new : String) : String :=
  String.mk (replaceFuel old.data new.data s.data.length s.data)

/-- `os.path.basename` for '/'-separated paths (also models
`filename.split('/')[-1]`): the characters after the last `/`. -/
def basename (s : String) : String :=
  String.mk ((s.data.reverse.takeWhile (fun c => !(c = '/'))).reverse)

/-- Split on `/` — Python's `split('/')` (structural helper for `projOf`). -/
def splitSlashAux : List Char → List Char → List (List Char)
  | [], cur => [cur.reverse]
  | c :: cs, cur =>
    if c = '/' then cur.reverse :: splitSlashAux cs []
    else splitSlashAux cs (c :: cur)

/-- A `<line number=... hits=.../>` element. -/
structure LineHit where
  number : Nat
  hits : Nat
deriving Repr, DecidableEq

/-- A `<class name=... filename=...>` element with its `<line>` children. -/
structure ClassCov where
  name : String
  filename : String
  lines : List LineHit
deriving Repr, DecidableEq

/-- A `<package name=... line-rate=...>` element. -/
structure Package where
  name : String
  lineRate : ℚ
  classes : List ClassCov
deriving Repr, DecidableEq

/-- A parsed coverage XML document (root `line-rate` plus packages). -/
structure Report where
  lineRate : ℚ
  packages : List Package
deriving Repr, DecidableEq

/-- State of a path on disk: missing, present but unparsable, or parsed. -/
inductive FileData where
  | absent
  | malformed
  | good (rep : Report)
deriving Repr, DecidableEq

/-- `(covered / total * 100) if total > 0 else 0` — the guarded percentage
used throughout `analyze_all_coverage.py` and `analyze_project_coverage.py`. -/
def pct (covered total : Nat) : ℚ :=
  if 0 < total then (covered : ℚ) / (total : ℚ) * 100 else 0

/-- `sum(1 for l in lines if int(l.get('hits', 0)) > 0)`. -/
def coveredCount (lines : List LineHit) : Nat :=
  lines.countP (fun l => decide (0 < l.hits))

/-- One entry of a `files` list in `analyze_all_coverage.py`
(lines 51-57 of the script). -/
structure FileRec where
  name : String
  total : Nat
  covered : Nat
  uncovered : Nat
  coverage : ℚ
deriving Repr, DecidableEq

/-- Value of `results[pkg_name]` in `analyze_coverage`. -/
structure PkgAgg where
  total : Nat
  covered : Nat
  files : List FileRec
deriving Repr, DecidableEq

/-- The file record appended at lines 51-57 of `analyze_all_coverage.py`. -/
def mkFileRec (filename : String) (total covered : Nat) : FileRec :=
  { name := basename filename
    total := total
    covered := covered
    uncovered := total - covered
    coverage := pct covered total }

/-- Add `t`/`c` to the aggregate stored under key `pkg` (creating the entry
if absent, as the dict access in lines 41-45 does) and extend its file
list by `fs`. -/
def assocAdd : List (String × PkgAgg) → String → Nat → Nat → List FileRec →
    List (String × PkgAgg)
  | [], pkg, t, c, fs => [(pkg, ⟨t, c, fs⟩)]
  | (k, agg) :: rest, pkg, t, c, fs =>
    if k = pkg then
      (k, ⟨agg.total + t, agg.covered + c, agg.files ++ fs⟩) :: rest
    else
      (k, agg) :: assocAdd rest pkg t c fs

/-- Body of the `for cls in classes` loop in `analyze_coverage`
(lines 31-57): skip classes with no lines, accumulate totals, record a
file entry only when `total > covered`. -/
def addClass (pkg : String) (res : List (String × PkgAgg)) (cls : ClassCov) :
    List (String × PkgAgg) :=
  if cls.lines.isEmpty then res
  else
    let total := cls.lines.length
    let covered := coveredCount cls.lines
    let fr : List FileRec :=
      if covered < total then [mkFileRec cls.filename total covered] else []
    assocAdd res pkg total covered fr

/-- Package filter of `analyze_coverage` (lines 22-28): skip packages whose
name contains `Tests`; honour the optional project filter. -/
def pkgIncluded (filt : Option String) (name : String) : Bool :=
  !(strContains name "Tests") &&
    (match filt with
     | none => true
     | some f => strContains name f)

/-- `analyze_coverage` of `analyze_all_coverage.py` applied to a parsed
report: the `results` dict as an insertion-ordered association list. -/
def analyze_coverage (rep : Report) (filt : Option String) :
    List (String × PkgAgg) :=
  rep.packages.foldl
    (fun res pkg =>
      if pkgIncluded filt pkg.name then
        pkg.classes.foldl (addClass pkg.name) res
      else res)
    []

/-- The whole of `analyze_coverage` including its file handling: a missing
path returns `None` (line 11-12); `ET.parse` on an unparsable file raises,
uncaught (line 14). -/
def analyzeCoverageFile (fd : FileData) (filt : Option String) :
    Except Unit (Option (List (String × PkgAgg))) :=
  match fd with
  | .absent => .ok none
  | .malformed => .error ()
  | .good rep => .ok (some (analyze_coverage rep filt))

/-- Descending-by-uncovered preorder: the key `-x['uncovered']` used by the
two `sorted(...)` calls at lines 136 and 149 of `analyze_all_coverage.py`. -/
def uncGE (a b : FileRec) : Prop :=
  b.uncovered ≤ a.uncovered

instance : DecidableRel uncGE :=
  fun a b => Nat.decLe b.uncovered a.uncovered

instance : IsTotal FileRec uncGE :=
  ⟨fun a b => Nat.le_total b.uncovered a.uncovered⟩

instance : IsTrans FileRec uncGE :=
  ⟨fun _ _ _ h1 h2 => Nat.le_trans h2 h1⟩

/-- `sorted(files, key=lambda x: -x['uncovered'])` — Python's stable sort
by descending uncovered count. -/
def sortU (l : List FileRec) : List FileRec :=
  List.insertionSort uncGE l

/-- The in-place merge at lines 144-146: add the counts of `f` into `g`,
leaving `name` and the `coverage` field untouched. -/
def mergeCounts (g f : FileRec) : FileRec :=
  { g with
    total := g.total + f.total
    covered := g.covered + f.covered
    uncovered := g.uncovered + f.uncovered }

/-- One step of the `seen_files` loop (lines 139-146): first occurrence of
a name is kept in place, later occurrences are merged into it. -/
def addSeen : List FileRec → FileRec → List FileRec
  | [], f => [f]
  | g :: gs, f =>
    if g.name = f.name then mergeCounts g f :: gs
    else g :: addSeen gs f

/-- `seen_files.values()` after the dedup loop, in dict insertion order. -/
def dedup (l : List FileRec) : List FileRec :=
  l.foldl addSeen []

/-- The merged per-file aggregates of one assembly's detail view:
pre-sort, then deduplicate (lines 136-146). -/
def fileAgg (files : List FileRec) : List FileRec :=
  dedup (sortU files)

/-- The list of files actually printed for one assembly (lines 149-152):
re-sort the merged aggregates and keep the top 10. -/
def detailFiles (files : List FileRec) : List FileRec :=
  (sortU (fileAgg files)).take 10

/-- Merge one `results` dict into `all_results` (lines 71-74). -/
def mergeResults (acc res : List (String × PkgAgg)) : List (String × PkgAgg) :=
  res.foldl (fun a e => assocAdd a e.1 e.2.total e.2.covered e.2.files) acc

/-- `all_results` after the merge loop of `main` (lines 66-74), over the
successfully parsed reports in input order. -/
def allResults (reports : List Report) : List (String × PkgAgg) :=
  reports.foldl (fun acc rep => mergeResults acc (analyze_coverage rep none)) []

/-- Ascending-by-coverage preorder on assemblies: the sort key at
line 85 of `analyze_all_coverage.py`. -/
def asmLE (a b : String × PkgAgg) : Prop :=
  pct a.2.covered a.2.total ≤ pct b.2.covered b.2.total

instance : DecidableRel asmLE :=
  fun _ _ => inferInstanceAs (Decidable (_ ≤ _))

instance : IsTotal (String × PkgAgg) asmLE :=
  ⟨fun _ _ => le_total _ _⟩

instance : IsTrans (String × PkgAgg) asmLE :=
  ⟨fun _ _ _ h1 h2 => le_trans h1 h2⟩

/-- Status marker of lines 103-108. -/
def statusOf (c : ℚ) : String :=
  if 95 ≤ c then "[OK]" else if 85 ≤ c then "[--]" else "[!!]"

/-- `pkg_name.replace('KeenEyes.', '')`. -/
def shortName (s : String) : String :=
  strReplace s "KeenEyes." ""

/-- One printed row of the overview table (line 111). -/
structure Row where
  name : String
  coverage : ℚ
  covered : Nat
  total : Nat
  status : String
deriving Repr, DecidableEq

/-- Everything `main` of `analyze_all_coverage.py` prints: the overview
rows, the OVERALL line, and the below-90% detail sections. -/
structure Summary where
  rows : List Row
  overallPct : ℚ
  overallCovered : Nat
  overallTotal : Nat
  details : List (String × ℚ × List FileRec)
deriving Repr, DecidableEq

/-- The summary printed by `main` (lines 76-155) for a list of parsed
reports: assemblies sorted ascending by coverage, zero-line assemblies
skipped, OVERALL accumulated over the printed rows, and a detail section
for every assembly strictly below 90%. -/
def analyzeAllSummary (reports : List Report) : Summary :=
  let sortedA := List.insertionSort asmLE (allResults reports)
  let nonzero := sortedA.filter (fun e => decide (e.2.total ≠ 0))
  let rows := nonzero.map (fun e =>
    let c := pct e.2.covered e.2.total
    Row.mk (shortName e.1) c e.2.covered e.2.total (statusOf c))
  let totalAll := (nonzero.map (fun e => e.2.total)).sum
  let coveredAll := (nonzero.map (fun e => e.2.covered)).sum
  let details :=
    (nonzero.filter (fun e => decide (pct e.2.covered e.2.total < 90))).map
      (fun e => (shortName e.1, pct e.2.covered e.2.total, detailFiles e.2.files))
  { rows := rows
    overallPct := pct coveredAll totalAll
    overallCovered := coveredAll
    overallTotal := totalAll
    details := details }

/-- The file loop of `main` (lines 68-74): absent files yield `None` and
are skipped; the first unparsable file raises out of `analyze_coverage`
and aborts the run. -/
def collectReports : List FileData → Except Unit (List Report)
  | [] => .ok []
  | .absent :: fs => collectReports fs
  | .malformed :: _ => .error ()
  | .good r :: fs => (collectReports fs).map (fun rs => r :: rs)

/-- `main` of `analyze_all_coverage.py` over the globbed files. -/
def analyzeAllMain (files : List FileData) : Except Unit Summary :=
  (collectReports files).map analyzeAllSummary

/-- Entry of `uncovered_files` in `analyze_project_coverage.py`
(lines 65-70). -/
structure FileRecP where
  name : String
  uncovered : Nat
  coverage : ℚ
  generated : Bool
deriving Repr, DecidableEq

/-- `'.g.cs' in basename`. -/
def isGenerated (s : String) : Bool :=
  strContains s ".g.cs"

/-- One step of the `file_map` loop (lines 77-81 of
`analyze_project_coverage.py`): only the `uncovered` field of the
first-seen entry is updated. -/
def addSeenP : List FileRecP → FileRecP → List FileRecP
  | [], f => [f]
  | g :: gs, f =>
    if g.name = f.name then { g with uncovered := g.uncovered + f.uncovered } :: gs
    else g :: addSeenP gs f

/-- `file_map.values()` after the dedup loop of
`analyze_project_coverage.py`. -/
def dedupP (l : List FileRecP) : List FileRecP :=
  l.foldl addSeenP []

/-- Descending-by-uncovered preorder on `FileRecP`: the sort key at
line 87 of `analyze_project_coverage.py`. -/
def uncGEP (a b : FileRecP) : Prop :=
  b.uncovered ≤ a.uncovered

instance : DecidableRel uncGEP :=
  fun a b => Nat.decLe b.uncovered a.uncovered

instance : IsTotal FileRecP uncGEP :=
  ⟨fun a b => Nat.le_total b.uncovered a.uncovered⟩

instance : IsTrans FileRecP uncGEP :=
  ⟨fun _ _ _ h1 h2 => Nat.le_trans h2 h1⟩

/-- Package filter at line 46 of `analyze_project_coverage.py`:
`if target_assembly not in pkg_name or 'Tests' in pkg_name: continue`. -/
def projIncluded (target name : String) : Bool :=
  strContains name target && !(strContains name "Tests")

/-- Accumulator of the class loop in `analyze_project_coverage`. -/
structure ProjAcc where
  total : Nat
  covered : Nat
  files : List FileRecP
deriving Repr, DecidableEq

/-- Body of the `for cls in pkg.findall('.//class')` loop
(lines 49-70 of `analyze_project_coverage.py`). -/
def projClass (acc : ProjAcc) (cls : ClassCov) : ProjAcc :=
  if cls.lines.isEmpty then acc
  else if 0 < cls.lines.length - coveredCount cls.lines then
    { total := acc.total + cls.lines.length
      covered := acc.covered + coveredCount cls.lines
      files := acc.files ++
        [⟨basename cls.filename, cls.lines.length - coveredCount cls.lines,
          pct (coveredCount cls.lines) cls.lines.length,
          isGenerated (basename cls.filename)⟩] }
  else
    { total := acc.total + cls.lines.length
      covered := acc.covered + coveredCount cls.lines
      files := acc.files }

/-- Return value of `analyze_project_coverage` (lines 83-88). -/
structure ProjResult where
  total : Nat
  covered : Nat
  coverage : ℚ
  uncovered_files : List FileRecP
deriving Repr, DecidableEq

/-- `analyze_project_coverage` of `analyze_project_coverage.py`: `None` on
a missing path (lines 32-33) or when no line was found (lines 72-73);
`ET.parse` raises, uncaught, on an unparsable file (line 35). -/
def analyze_project_coverage (fd : FileData) (target : String) :
    Except Unit (Option ProjResult) :=
  match fd with
  | .absent => .ok none
  | .malformed => .error ()
  | .good rep =>
    let acc := rep.packages.foldl
      (fun a pkg =>
        if projIncluded target pkg.name then pkg.classes.foldl projClass a else a)
      ⟨0, 0, []⟩
    if acc.total = 0 then .ok none
    else .ok (some
      { total := acc.total
        covered := acc.covered
        coverage := pct acc.covered acc.total
        uncovered_files := (List.insertionSort uncGEP (dedupP acc.files)).take 5 })

/-- `parts[1].replace('.Tests', '')` after `f.replace('\\', '/')` in
`check_coverage.py` (lines 7-8). -/
def projOf (path : String) : String :=
  strReplace
    (String.mk ((splitSlashAux (strReplace path "\\" "/").data []).getD 1 []))
    ".Tests" ""

/-- What `check_coverage.py` prints: the sorted `(proj, rate*100)` rows and
one error line (naming the path) per file that failed to parse. -/
structure CheckOut where
  rows : List (String × ℚ)
  errors : List String
deriving Repr, DecidableEq

/-- Ascending sort key `x[1]` at line 17 of `check_coverage.py`. -/
def checkLE (a b : String × ℚ) : Prop :=
  a.2 ≤ b.2

instance : DecidableRel checkLE :=
  fun _ _ => inferInstanceAs (Decidable (_ ≤ _))

instance : IsTotal (String × ℚ) checkLE :=
  ⟨fun _ _ => le_total _ _⟩

instance : IsTrans (String × ℚ) checkLE :=
  ⟨fun _ _ _ h1 h2 => le_trans h1 h2⟩

/-- The module-level loop of `check_coverage.py` (lines 5-17): the
`try/except` catches any per-file failure (missing or unparsable file),
prints an error naming the path, and continues; surviving rows are sorted
ascending by rate. -/
def checkStep (o : CheckOut) (pf : String × FileData) : CheckOut :=
  match pf.2 with
  | .good rep => { o with rows := o.rows ++ [(projOf pf.1, rep.lineRate * 100)] }
  | _ => { o with errors := o.errors ++ [pf.1] }

def check_coverage (files : List (String × FileData)) : CheckOut :=
  let o := files.foldl checkStep ⟨[], []⟩
  { o with rows := List.insertionSort checkLE o.rows }

/-- Package filter at line 16 of `check_coverage_detailed.py`:
`'KeenEyes' in name and '.Tests' not in name` — note the marker used here
is `.Tests`, with a leading dot. -/
def ccdIncluded (name : String) : Bool :=
  strContains name "KeenEyes" && !(strContains name ".Tests")

/-- The per-package line counting of `check_coverage_detailed.py`
(lines 17-29): a row is printed only when the package has lines. -/
def ccdPkg (pkg : Package) : Option (String × ℚ × Nat × Nat) :=
  let lv : Nat := (pkg.classes.map (fun c => c.lines.length)).sum
  let lc : Nat := (pkg.classes.map (fun c => coveredCount c.lines)).sum
  if 0 < lv then some (pkg.name, ((lc : ℚ) / (lv : ℚ)) * 100, lc, lv) else none

/-- The module-level loop of `check_coverage_detailed.py`: each file
yields either its package rows or a caught, printed error; the run always
covers every file. -/
def check_coverage_detailed (files : List (String × FileData)) :
    List (String × Except Unit (List (String × ℚ × Nat × Nat))) :=
  files.map (fun pf =>
    (pf.1,
     match pf.2 with
     | .good rep => .ok ((rep.packages.filter (fun p => ccdIncluded p.name)).filterMap ccdPkg)
     | _ => .error ()))

/-- One printed class block of `find_uncovered.py` (lines 25-38). -/
structure UncClass where
  clsName : String
  shortFile : String
  rate : ℚ
  covered : Nat
  total : Nat
  uncoveredCount : Nat
  uncoveredLines : List Nat
deriving Repr, DecidableEq

/-- `filename.split('/')[-1] if filename else ''` after replacing
backslashes (lines 15, 31 of `find_uncovered.py`). -/
def shortFileOf (filename : String) : String :=
  basename (strReplace filename "\\" "/")

/-- Body of the class loop of `find_uncovered.py` (lines 14-38): a class
is printed when it has lines and its rate is below 100. -/
def findUncStep (acc : List UncClass) (cls : ClassCov) : List UncClass :=
  if 0 < cls.lines.length then
    if ((coveredCount cls.lines : ℚ) / (cls.lines.length : ℚ)) * 100 < 100 then
      acc ++ [⟨cls.name, shortFileOf cls.filename,
               ((coveredCount cls.lines : ℚ) / (cls.lines.length : ℚ)) * 100,
               coveredCount cls.lines, cls.lines.length,
               cls.lines.length - coveredCount cls.lines,
               ((cls.lines.filter (fun l => decide (l.hits = 0))).map
                 (fun l => l.number))⟩]
    else acc
  else acc

/-- The class loop of `find_uncovered.py`. -/
def find_uncovered_pkg (pkg : Package) : List UncClass :=
  pkg.classes.foldl findUncStep []

/-- `find_uncovered.py`: `ET.parse` at line 7 has no existence check and
no `try`, so both a missing and an unparsable file raise and abort; on
success, every package whose name equals the target is printed
(line 11), with no test-assembly exclusion. -/
def find_uncovered (fd : FileData) (target : String) :
    Except Unit (List (String × List UncClass)) :=
  match fd with
  | .absent => .error ()
  | .malformed => .error ()
  | .good rep =>
    .ok ((rep.packages.filter (fun p => p.name == target)).map
      (fun p => (p.name, find_uncovered_pkg p)))

/-- Package filter of `analyze_core_detailed.py` (line 11):
`'KeenEyes.Core' in name and 'Tests' not in name`. -/
def coreIncluded (name : String) : Bool :=
  strContains name "KeenEyes.Core" && !(strContains name "Tests")

/-- The overall counters of `analyze_core_detailed.py` (lines 32-41). -/
def coreTotals (rep : Report) : Nat × Nat :=
  let pkgs := rep.packages.filter (fun p => coreIncluded p.name)
  ((pkgs.map (fun p => (p.classes.map (fun c => c.lines.length)).sum)).sum,
   (pkgs.map (fun p => (p.classes.map (fun c => coveredCount c.lines)).sum)).sum)

/-- Line 45 of `analyze_core_detailed.py` prints
`covered_lines/total_lines*100` with no guard: when `total_lines = 0` the
division raises `ZeroDivisionError`, modelled as `none`. -/
def analyze_core_detailed_overall (rep : Report) : Option ℚ :=
  let tc := coreTotals rep
  if tc.1 = 0 then none
  else some (((tc.2 : ℚ) / (tc.1 : ℚ)) * 100)

/-- `analyze_core_detailed.py` parses one fixed path at module level
(line 6) with no existence check and no `try`: a missing or unparsable
file raises and aborts the script. -/
def analyze_core_detailed_run (fd : FileData) : Except Unit (Option ℚ) :=
  match fd with
  | .good rep => .ok (analyze_core_detailed_overall rep)
  | _ => .error ()

/-! ### Observation functions used by the theorems -/
/-- Did the file parse successfully? -/
def isGood : FileData → Bool
  | .good _ => true
  | _ => false

/-- Sum of a numeric field over all records with base name `n`. -/
def sumOf (ν : FileRec → Nat) (l : List FileRec) (n : String) : Nat :=
  ((l.filter (fun f => f.name == n)).map ν).sum

/-- Summed `total` of the records named `n`. -/
def totalOf (l : List FileRec) (n : String) : Nat :=
  sumOf (fun f => f.total) l n

/-- Summed `covered` of the records named `n`. -/
def coveredOf (l : List FileRec) (n : String) : Nat :=
  sumOf (fun f => f.covered) l n

/-- Summed `uncovered` of the records named `n`. -/
def uncoveredOf (l : List FileRec) (n : String) : Nat :=
  sumOf (fun f => f.uncovered) l n

/-- `coverage` field of the first record named `n`, if any. -/
def covFirst (l : List FileRec) (n : String) : Option ℚ :=
  (l.find? (fun f => f.name == n)).map (fun f => f.coverage)

/-- Summed `uncovered` over `FileRecP` records named `n`. -/
def uncOfP (l : List FileRecP) (n : String) : Nat :=
  ((l.filter (fun f => f.name == n)).map (fun f => f.uncovered)).sum

/-- `coverage` field of the first `FileRecP` record named `n`, if any. -/
def covFirstP (l : List FileRecP) (n : String) : Option ℚ :=
  (l.find? (fun f => f.name == n)).map (fun f => f.coverage)

/-- Summed `total` of the aggregates stored under assembly name `q`. -/
def pkgTotal (res : List (String × PkgAgg)) (q : String) : Nat :=
  ((res.filter (fun e => e.1 == q)).map (fun e => e.2.total)).sum

/-- Summed `covered` of the aggregates stored under assembly name `q`. -/
def pkgCovered (res : List (String × PkgAgg)) (q : String) : Nat :=
  ((res.filter (fun e => e.1 == q)).map (fun e => e.2.covered)).sum

/-- Concatenated file records stored under assembly name `q`. -/
def pkgFiles (res : List (String × PkgAgg)) (q : String) : List FileRec :=
  ((res.filter (fun e => e.1 == q)).map (fun e => e.2.files)).flatten

/-- Keys of the association list, in insertion order. -/
def keysOf (res : List (String × PkgAgg)) : List String :=
  res.map (fun e => e.1)

/-! ### Concrete example data -/
/-- Ten lines, all hit. -/
def exLinesCov : List LineHit := List.replicate 10 ⟨1, 1⟩

/-- Ten lines, five hit and five unhit. -/
def exLinesHalf : List LineHit :=
  List.replicate 5 ⟨1, 1⟩ ++ List.replicate 5 ⟨1, 0⟩

/-- A report whose package `Sample` has class `A.cs` fully covered
(total=10, covered=10). -/
def exRepFull : Report := ⟨1, [⟨"Sample", 1, [⟨"A", "A.cs", exLinesCov⟩]⟩]⟩

/-- A report whose package `Sample` has class `A.cs` half covered
(total=10, covered=5). -/
def exRepHalf : Report := ⟨1, [⟨"Sample", 1, [⟨"A", "A.cs", exLinesHalf⟩]⟩]⟩

/-- A parsed row of `check_coverage.py` for one input file, if it parsed. -/
def goodRow (pf : String × FileData) : Option (String × ℚ) :=
  match pf.2 with
  | .good rep => some (projOf pf.1, rep.lineRate * 100)
  | _ => none

/-- Remove every package whose name contains `Tests`. -/
def dropTests (rep : Report) : Report :=
  ⟨rep.lineRate, rep.packages.filter (fun p => !(strContains p.name "Tests"))⟩

/-- Remove every package whose name contains `.Tests` (the marker used by
`check_coverage_detailed.py`). -/
def dropDotTests : FileData → FileData
  | .good rep => .good ⟨rep.lineRate, rep.packages.filter (fun p => !(strContains p.name ".Tests"))⟩
  | fd => fd

/-- A test package with one class having one hit and one unhit line. -/
def exTestsPkg : Package :=
  ⟨"KeenEyes.Core.Tests", 1, [⟨"TestsA", "Foo.cs", [⟨1, 0⟩, ⟨2, 1⟩]⟩]⟩

/-- A report containing only a test package, with an uncovered line. -/
def exTestsRep : Report := ⟨1, [exTestsPkg]⟩

/-- Modelled from the spec: the ordering §4.4 claims for the detail view —
descending by uncovered count with ties broken by coverage percentage
ascending.  Defined only to be compared against the program's actual sort. -/
def specDetailOrder (a b : FileRec) : Prop :=
  b.uncovered < a.uncovered ∨
    (a.uncovered = b.uncovered ∧ a.coverage ≤ b.coverage)

/-- A file record with 5 uncovered lines and 80% coverage. -/
def exF80 : FileRec := ⟨"F1.cs", 25, 20, 5, 80⟩

/-- A file record with 5 uncovered lines and 50% coverage. -/
def exF50 : FileRec := ⟨"F2.cs", 10, 5, 5, 50⟩

/-- Remove the classes whose lines are all covered (and those with no
lines). -/
def dropFullyCovered (rep : Report) : Report :=
  ⟨rep.lineRate,
   rep.packages.map (fun p =>
     ⟨p.name, p.lineRate,
      p.classes.filter (fun c => decide (coveredCount c.lines < c.lines.length))⟩)⟩

/-- What one class contributes to `pkgFiles` at `q`. -/
def addClassDelta (p : String) (c : ClassCov) (q : String) : List FileRec :=
  if c.lines.isEmpty then []
  else if p = q then
    (if coveredCount c.lines < c.lines.length then
      [mkFileRec c.filename c.lines.length (coveredCount c.lines)]
    else [])
  else []

/-- A record for `A.cs`: 10 lines, 5 covered, stored coverage 50%. -/
def exG50 : FileRec := ⟨"A.cs", 10, 5, 5, 50⟩

/-- A second record for `A.cs`: 10 lines, 9 covered, stored coverage 90%. -/
def exG90 : FileRec := ⟨"A.cs", 10, 9, 1, 90⟩

/-! ### Generic helper lemmas -/
theorem foldl_preserve {α β : Type} {step : β → α → β} {P : β → Prop}
    (h : ∀ b a, P b → P (step b a)) :
    ∀ (l : List α) (b : β), P b → P (l.foldl step b) := by
  intro l
  induction l with
  | nil => intro b hb; exact hb
  | cons a as ih => intro b hb; exact ih _ (h b a hb)

theorem sumOf_nil (ν : FileRec → Nat) (n : String) : sumOf ν [] n = 0 := rfl

theorem sumOf_cons (ν : FileRec → Nat) (f : FileRec) (l : List FileRec)
    (n : String) :
    sumOf ν (f :: l) n = (if f.name = n then ν f else 0) + sumOf ν l n := by
  by_cases h : f.name = n <;>
    simp [sumOf, List.filter_cons, h]

theorem sumOf_append (ν : FileRec → Nat) (l₁ l₂ : List FileRec) (n : String) :
    sumOf ν (l₁ ++ l₂) n = sumOf ν l₁ n + sumOf ν l₂ n := by
  simp [sumOf, List.filter_append]

theorem sumOf_perm (ν : FileRec → Nat) {l₁ l₂ : List FileRec}
    (h : l₁.Perm l₂) (n : String) : sumOf ν l₁ n = sumOf ν l₂ n :=
  ((h.filter _).map ν).sum_eq

theorem covFirst_cons (f : FileRec) (l : List FileRec) (n : String) :
    covFirst (f :: l) n =
      if f.name = n then some f.coverage else covFirst l n := by
  by_cases h : f.name = n <;>
    simp [covFirst, List.find?_cons, h]

/-! ### The dedup merge of `analyze_all_coverage.py` sums counts and keeps
the first occurrence's `coverage` -/
theorem mergeCounts_name (g f : FileRec) : (mergeCounts g f).name = g.name := rfl

theorem sumOf_addSeen (ν : FileRec → Nat)
    (hν : ∀ g f, ν (mergeCounts g f) = ν g + ν f) :
    ∀ (acc : List FileRec) (f : FileRec) (n : String),
      sumOf ν (addSeen acc f) n =
        sumOf ν acc n + (if f.name = n then ν f else 0) := by
  intro acc
  induction acc with
  | nil =>
    intro f n
    have h0 : addSeen [] f = [f] := rfl
    rw [h0, sumOf_cons, sumOf_nil]
    omega
  | cons g gs ih =>
    intro f n
    by_cases hg : g.name = f.name
    · simp only [addSeen, if_pos hg]
      rw [sumOf_cons, sumOf_cons, mergeCounts_name]
      by_cases hn : g.name = n
      · rw [if_pos hn, if_pos hn, hν]
        have : f.name = n := hg ▸ hn
        rw [if_pos this]
        omega
      · rw [if_neg hn, if_neg hn]
        have : ¬ f.name = n := fun h => hn (hg.trans h)
        rw [if_neg this]
        omega
    · simp only [addSeen, if_neg hg]
      rw [sumOf_cons, ih, sumOf_cons]
      omega

theorem sumOf_foldl_addSeen (ν : FileRec → Nat)
    (hν : ∀ g f, ν (mergeCounts g f) = ν g + ν f) :
    ∀ (l acc : List FileRec) (n : String),
      sumOf ν (l.foldl addSeen acc) n = sumOf ν acc n + sumOf ν l n := by
  intro l
  induction l with
  | nil => intro acc n; simp [sumOf_nil]
  | cons f fs ih =>
    intro acc n
    rw [List.foldl_cons, ih, sumOf_addSeen ν hν, sumOf_cons]
    omega

theorem sumOf_dedup (ν : FileRec → Nat)
    (hν : ∀ g f, ν (mergeCounts g f) = ν g + ν f)
    (l : List FileRec) (n : String) :
    sumOf ν (dedup l) n = sumOf ν l n := by
  rw [dedup, sumOf_foldl_addSeen ν hν, sumOf_nil]
  omega

theorem covFirst_addSeen (acc : List FileRec) (f : FileRec) (n : String) :
    covFirst (addSeen acc f) n =
      (covFirst acc n).or (if f.name = n then some f.coverage else none) := by
  induction acc with
  | nil =>
    have h0 : addSeen [] f = [f] := rfl
    rw [h0, covFirst_cons]
    by_cases h : f.name = n <;> simp [h, covFirst, Option.or]
  | cons g gs ih =>
    by_cases hg : g.name = f.name
    · simp only [addSeen, if_pos hg]
      rw [covFirst_cons, covFirst_cons, mergeCounts_name]
      by_cases hn : g.name = n
      · simp [hn, mergeCounts, Option.or]
      · have hfn : ¬ f.name = n := fun h => hn (hg.trans h)
        simp [hn, hfn, Option.or_none]
    · simp only [addSeen, if_neg hg]
      rw [covFirst_cons, covFirst_cons, ih]
      by_cases hn : g.name = n <;> simp [hn, Option.or]

theorem covFirst_foldl_addSeen :
    ∀ (l acc : List FileRec) (n : String),
      covFirst (l.foldl addSeen acc) n = (covFirst acc n).or (covFirst l n) := by
  intro l
  induction l with
  | nil => intro acc n; simp [covFirst, Option.or_none]
  | cons f fs ih =>
    intro acc n
    rw [List.foldl_cons, ih, covFirst_addSeen, covFirst_cons, Option.or_assoc]
    by_cases h : f.name = n <;> simp [h, Option.or]

theorem covFirst_dedup (l : List FileRec) (n : String) :
    covFirst (dedup l) n = covFirst l n := by
  rw [dedup, covFirst_foldl_addSeen]
  simp [covFirst, Option.or]

/-! ### The dedup merge of `analyze_project_coverage.py` sums only
`uncovered` and keeps the first occurrence's `coverage` -/
theorem uncOfP_cons (f : FileRecP) (l : List FileRecP) (n : String) :
    uncOfP (f :: l) n = (if f.name = n then f.uncovered else 0) + uncOfP l n := by
  by_cases h : f.name = n <;> simp [uncOfP, List.filter_cons, h]

theorem covFirstP_cons (f : FileRecP) (l : List FileRecP) (n : String) :
    covFirstP (f :: l) n =
      if f.name = n then some f.coverage else covFirstP l n := by
  by_cases h : f.name = n <;> simp [covFirstP, List.find?_cons, h]

theorem uncOfP_addSeenP :
    ∀ (acc : List FileRecP) (f : FileRecP) (n : String),
      uncOfP (addSeenP acc f) n =
        uncOfP acc n + (if f.name = n then f.uncovered else 0) := by
  intro acc
  induction acc with
  | nil =>
    intro f n
    have h0 : addSeenP [] f = [f] := rfl
    rw [h0, uncOfP_cons]
    have h1 : uncOfP [] n = 0 := rfl
    rw [h1]
    omega
  | cons g gs ih =>
    intro f n
    by_cases hg : g.name = f.name
    · simp only [addSeenP, if_pos hg]
      rw [uncOfP_cons, uncOfP_cons]
      by_cases hn : g.name = n
      · have hfn : f.name = n := hg ▸ hn
        simp only [hn, if_pos, hfn]
        omega
      · have hfn : ¬ f.name = n := fun h => hn (hg.trans h)
        rw [if_neg hn, if_neg hn, if_neg hfn]
        omega
    · simp only [addSeenP, if_neg hg]
      rw [uncOfP_cons, ih, uncOfP_cons]
      omega

theorem uncOfP_dedupP (l : List FileRecP) (n : String) :
    uncOfP (dedupP l) n = uncOfP l n := by
  have main : ∀ (m acc : List FileRecP),
      uncOfP (m.foldl addSeenP acc) n = uncOfP acc n + uncOfP m n := by
    intro m
    induction m with
    | nil => intro acc; have h1 : uncOfP [] n = 0 := rfl; rw [List.foldl_nil, h1]; omega
    | cons f fs ih =>
      intro acc
      rw [List.foldl_cons, ih, uncOfP_addSeenP, uncOfP_cons]
      omega
  rw [dedupP, main]
  have h1 : uncOfP [] n = 0 := rfl
  rw [h1]
  omega

theorem covFirstP_addSeenP :
    ∀ (acc : List FileRecP) (f : FileRecP) (n : String),
      covFirstP (addSeenP acc f) n =
        (covFirstP acc n).or (if f.name = n then some f.coverage else none) := by
  intro acc
  induction acc with
  | nil =>
    intro f n
    have h0 : addSeenP [] f = [f] := rfl
    rw [h0, covFirstP_cons]
    by_cases h : f.name = n <;> simp [h, covFirstP, Option.or]
  | cons g gs ih =>
    intro f n
    by_cases hg : g.name = f.name
    · simp only [addSeenP, if_pos hg]
      rw [covFirstP_cons, covFirstP_cons]
      by_cases hn : g.name = n
      · simp [hn, Option.or]
      · have hfn : ¬ f.name = n := fun h => hn (hg.trans h)
        simp [hn, hfn, Option.or_none]
    · simp only [addSeenP, if_neg hg]
      rw [covFirstP_cons, covFirstP_cons, ih]
      by_cases hn : g.name = n <;> simp [hn, Option.or]

theorem covFirstP_dedupP (l : List FileRecP) (n : String) :
    covFirstP (dedupP l) n = covFirstP l n := by
  have main : ∀ (m acc : List FileRecP),
      covFirstP (m.foldl addSeenP acc) n =
        (covFirstP acc n).or (covFirstP m n) := by
    intro m
    induction m with
    | nil => intro acc; simp [covFirstP, Option.or_none]
    | cons f fs ih =>
      intro acc
      rw [List.foldl_cons, ih, covFirstP_addSeenP, covFirstP_cons, Option.or_assoc]
      by_cases h : f.name = n <;> simp [h, Option.or]
  rw [dedupP, main]
  simp [covFirstP, Option.or]

/-! ### Stability of the `sorted(..., key=lambda x: -x['uncovered'])` sort:
filtering the output to any fixed uncovered count reproduces the input's
entries in their original order -/
theorem filterK_orderedInsert :
    ∀ (l : List FileRec) (f : FileRec) (k : Nat),
      (List.orderedInsert uncGE f l).filter (fun g => g.uncovered == k) =
        if f.uncovered = k
        then f :: l.filter (fun g => g.uncovered == k)
        else l.filter (fun g => g.uncovered == k) := by
  intro l
  induction l with
  | nil =>
    intro f k
    by_cases h : f.uncovered = k <;>
      simp [List.orderedInsert, List.filter_cons, h]
  | cons b bs ih =>
    intro f k
    by_cases hr : uncGE f b
    · rw [List.orderedInsert, if_pos hr]
      by_cases h : f.uncovered = k <;>
        simp [List.filter_cons, h]
    · rw [List.orderedInsert, if_neg hr]
      have hb : f.uncovered < b.uncovered := Nat.lt_of_not_le hr
      by_cases h : f.uncovered = k
      · have hbk : ¬ b.uncovered = k := by omega
        simp [List.filter_cons, hbk, ih, h]
      · by_cases hbk : b.uncovered = k <;>
          simp [List.filter_cons, hbk, ih, h]

theorem filterK_sortU :
    ∀ (l : List FileRec) (k : Nat),
      (sortU l).filter (fun g => g.uncovered == k) =
        l.filter (fun g => g.uncovered == k) := by
  intro l
  induction l with
  | nil => intro k; rfl
  | cons f fs ih =>
    intro k
    rw [sortU] at ih ⊢
    rw [List.insertionSort, filterK_orderedInsert]
    by_cases h : f.uncovered = k <;>
      simp [List.filter_cons, h, ih]

/-! ### Accumulation lemmas for the assembly-level dicts -/
theorem pkgTotal_cons (k : String) (agg : PkgAgg) (res : List (String × PkgAgg))
    (q : String) :
    pkgTotal ((k, agg) :: res) q =
      (if k = q then agg.total else 0) + pkgTotal res q := by
  by_cases h : k = q <;> simp [pkgTotal, List.filter_cons, h]

theorem pkgCovered_cons (k : String) (agg : PkgAgg) (res : List (String × PkgAgg))
    (q : String) :
    pkgCovered ((k, agg) :: res) q =
      (if k = q then agg.covered else 0) + pkgCovered res q := by
  by_cases h : k = q <;> simp [pkgCovered, List.filter_cons, h]

theorem pkgFiles_cons (k : String) (agg : PkgAgg) (res : List (String × PkgAgg))
    (q : String) :
    pkgFiles ((k, agg) :: res) q =
      (if k = q then agg.files else []) ++ pkgFiles res q := by
  by_cases h : k = q <;> simp [pkgFiles, List.filter_cons, h]

theorem pkgTotal_assocAdd :
    ∀ (res : List (String × PkgAgg)) (p : String) (t c : Nat)
      (fs : List FileRec) (q : String),
      pkgTotal (assocAdd res p t c fs) q =
        pkgTotal res q + (if p = q then t else 0) := by
  intro res
  induction res with
  | nil =>
    intro p t c fs q
    rw [assocAdd, pkgTotal_cons]
    have h0 : pkgTotal [] q = 0 := rfl
    rw [h0]
    by_cases h : p = q <;> simp [h]
  | cons e rest ih =>
    intro p t c fs q
    obtain ⟨k, agg⟩ := e
    by_cases hk : k = p
    · rw [assocAdd, if_pos hk, pkgTotal_cons, pkgTotal_cons]
      by_cases hq : k = q
      · have hpq : p = q := hk ▸ hq
        simp only [hq, if_pos, hpq]
        omega
      · have hpq : ¬ p = q := fun h => hq (hk ▸ h)
        rw [if_neg hq, if_neg hq, if_neg hpq]
        omega
    · rw [assocAdd, if_neg hk, pkgTotal_cons, pkgTotal_cons, ih]
      omega

theorem pkgCovered_assocAdd :
    ∀ (res : List (String × PkgAgg)) (p : String) (t c : Nat)
      (fs : List FileRec) (q : String),
      pkgCovered (assocAdd res p t c fs) q =
        pkgCovered res q + (if p = q then c else 0) := by
  intro res
  induction res with
  | nil =>
    intro p t c fs q
    rw [assocAdd, pkgCovered_cons]
    have h0 : pkgCovered [] q = 0 := rfl
    rw [h0]
    by_cases h : p = q <;> simp [h]
  | cons e rest ih =>
    intro p t c fs q
    obtain ⟨k, agg⟩ := e
    by_cases hk : k = p
    · rw [assocAdd, if_pos hk, pkgCovered_cons, pkgCovered_cons]
      by_cases hq : k = q
      · have hpq : p = q := hk ▸ hq
        simp only [hq, if_pos, hpq]
        omega
      · have hpq : ¬ p = q := fun h => hq (hk ▸ h)
        rw [if_neg hq, if_neg hq, if_neg hpq]
        omega
    · rw [assocAdd, if_neg hk, pkgCovered_cons, pkgCovered_cons, ih]
      omega

theorem keysOf_cons (k : String) (agg : PkgAgg)
    (res : List (String × PkgAgg)) :
    keysOf ((k, agg) :: res) = k :: keysOf res := rfl

theorem keysOf_assocAdd :
    ∀ (res : List (String × PkgAgg)) (p : String) (t c : Nat)
      (fs : List FileRec),
      keysOf (assocAdd res p t c fs) =
        if p ∈ keysOf res then keysOf res else keysOf res ++ [p] := by
  intro res
  induction res with
  | nil => intro p t c fs; simp [assocAdd, keysOf]
  | cons e rest ih =>
    intro p t c fs
    obtain ⟨k, agg⟩ := e
    rw [keysOf_cons]
    by_cases hk : k = p
    · rw [assocAdd, if_pos hk, keysOf_cons]
      have hmem : p ∈ k :: keysOf rest := by rw [hk]; exact List.mem_cons_self _ _
      rw [if_pos hmem]
    · rw [assocAdd, if_neg hk, keysOf_cons, ih]
      by_cases hmem : p ∈ keysOf rest
      · have : p ∈ k :: keysOf rest := List.mem_cons_of_mem _ hmem
        rw [if_pos hmem, if_pos this]
      · have : ¬ p ∈ k :: keysOf rest := by
          intro hc
          rcases List.mem_cons.mp hc with h | h
          · exact hk h.symm
          · exact hmem h
        rw [if_neg hmem, if_neg this]
        rfl

theorem keysOf_nodup_assocAdd (res : List (String × PkgAgg)) (p : String)
    (t c : Nat) (fs : List FileRec) (h : (keysOf res).Nodup) :
    (keysOf (assocAdd res p t c fs)).Nodup := by
  rw [keysOf_assocAdd]
  by_cases hmem : p ∈ keysOf res
  · simpa [hmem] using h
  · simp [hmem, List.nodup_append, h]

theorem pkgFiles_not_mem (res : List (String × PkgAgg)) (q : String)
    (h : ¬ q ∈ keysOf res) : pkgFiles res q = [] := by
  induction res with
  | nil => rfl
  | cons e rest ih =>
    obtain ⟨k, agg⟩ := e
    rw [keysOf_cons] at h
    have hk : ¬ k = q := fun hkq => h (hkq ▸ List.mem_cons_self _ _)
    have hrest : ¬ q ∈ keysOf rest := fun hq => h (List.mem_cons_of_mem _ hq)
    rw [pkgFiles_cons, if_neg hk, ih hrest]
    rfl

theorem pkgFiles_assocAdd :
    ∀ (res : List (String × PkgAgg)) (p : String) (t c : Nat)
      (fs : List FileRec) (q : String), (keysOf res).Nodup →
      pkgFiles (assocAdd res p t c fs) q =
        pkgFiles res q ++ (if p = q then fs else []) := by
  intro res
  induction res with
  | nil =>
    intro p t c fs q _
    rw [assocAdd, pkgFiles_cons]
    have h0 : pkgFiles [] q = [] := rfl
    rw [h0]
    by_cases h : p = q <;> simp [h]
  | cons e rest ih =>
    intro p t c fs q hnd
    obtain ⟨k, agg⟩ := e
    rw [keysOf_cons] at hnd
    have hndk : ¬ k ∈ keysOf rest := (List.nodup_cons.mp hnd).1
    have hndrest : (keysOf rest).Nodup := (List.nodup_cons.mp hnd).2
    by_cases hk : k = p
    · rw [assocAdd, if_pos hk, pkgFiles_cons, pkgFiles_cons]
      by_cases hq : k = q
      · have hpq : p = q := hk ▸ hq
        have hrest0 : pkgFiles rest q = [] := pkgFiles_not_mem rest q (hq ▸ hndk)
        simp [hq, hpq, hrest0]
      · have hpq : ¬ p = q := fun h => hq (hk ▸ h)
        simp [hq, hpq]
    · rw [assocAdd, if_neg hk, pkgFiles_cons, pkgFiles_cons, ih _ _ _ _ _ hndrest]
      by_cases hq : k = q <;> simp [hq]

theorem keysOf_nodup_addClass (p : String) (res : List (String × PkgAgg))
    (cls : ClassCov) (h : (keysOf res).Nodup) :
    (keysOf (addClass p res cls)).Nodup := by
  rw [addClass]
  split
  · exact h
  · exact keysOf_nodup_assocAdd _ _ _ _ _ h

theorem keysOf_nodup_analyze (rep : Report) (filt : Option String) :
    (keysOf (analyze_coverage rep filt)).Nodup := by
  rw [analyze_coverage]
  refine @foldl_preserve Package (List (String × PkgAgg)) _
    (fun r => (keysOf r).Nodup) ?_ rep.packages [] List.nodup_nil
  intro res pkg h
  split
  · exact @foldl_preserve ClassCov (List (String × PkgAgg)) _
      (fun r => (keysOf r).Nodup)
      (fun r c hr => keysOf_nodup_addClass _ r c hr) pkg.classes res h
  · exact h

theorem keysOf_nodup_mergeResults (acc res : List (String × PkgAgg))
    (h : (keysOf acc).Nodup) : (keysOf (mergeResults acc res)).Nodup := by
  rw [mergeResults]
  exact @foldl_preserve (String × PkgAgg) (List (String × PkgAgg)) _
    (fun r => (keysOf r).Nodup)
    (fun a e ha => keysOf_nodup_assocAdd _ _ _ _ _ ha) res acc h

theorem keysOf_nodup_allResults (reports : List Report) :
    (keysOf (allResults reports)).Nodup := by
  rw [allResults]
  exact @foldl_preserve Report (List (String × PkgAgg)) _
    (fun r => (keysOf r).Nodup)
    (fun acc rep ha => keysOf_nodup_mergeResults _ _ ha)
    reports [] List.nodup_nil

theorem pkgTotal_mergeResults :
    ∀ (res acc : List (String × PkgAgg)) (q : String),
      pkgTotal (mergeResults acc res) q = pkgTotal acc q + pkgTotal res q := by
  intro res
  induction res with
  | nil =>
    intro acc q
    have h0 : pkgTotal [] q = 0 := rfl
    rw [mergeResults, List.foldl_nil, h0]
    omega
  | cons e rest ih =>
    intro acc q
    obtain ⟨k, agg⟩ := e
    rw [mergeResults, List.foldl_cons]
    have hstep := pkgTotal_assocAdd acc k agg.total agg.covered agg.files q
    rw [show ∀ l : List (String × PkgAgg),
          l.foldl (fun a e => assocAdd a e.1 e.2.total e.2.covered e.2.files)
            (assocAdd acc k agg.total agg.covered agg.files) =
          mergeResults (assocAdd acc k agg.total agg.covered agg.files) l
        from fun l => rfl]
    rw [ih, hstep, pkgTotal_cons]
    omega

theorem pkgCovered_mergeResults :
    ∀ (res acc : List (String × PkgAgg)) (q : String),
      pkgCovered (mergeResults acc res) q = pkgCovered acc q + pkgCovered res q := by
  intro res
  induction res with
  | nil =>
    intro acc q
    have h0 : pkgCovered [] q = 0 := rfl
    rw [mergeResults, List.foldl_nil, h0]
    omega
  | cons e rest ih =>
    intro acc q
    obtain ⟨k, agg⟩ := e
    rw [mergeResults, List.foldl_cons]
    have hstep := pkgCovered_assocAdd acc k agg.total agg.covered agg.files q
    rw [show ∀ l : List (String × PkgAgg),
          l.foldl (fun a e => assocAdd a e.1 e.2.total e.2.covered e.2.files)
            (assocAdd acc k agg.total agg.covered agg.files) =
          mergeResults (assocAdd acc k agg.total agg.covered agg.files) l
        from fun l => rfl]
    rw [ih, hstep, pkgCovered_cons]
    omega

theorem pkgFiles_mergeResults :
    ∀ (res acc : List (String × PkgAgg)) (q : String), (keysOf acc).Nodup →
      pkgFiles (mergeResults acc res) q = pkgFiles acc q ++ pkgFiles res q := by
  intro res
  induction res with
  | nil =>
    intro acc q _
    have h0 : pkgFiles [] q = [] := rfl
    rw [mergeResults, List.foldl_nil, h0, List.append_nil]
  | cons e rest ih =>
    intro acc q hnd
    obtain ⟨k, agg⟩ := e
    rw [mergeResults, List.foldl_cons]
    rw [show ∀ l : List (String × PkgAgg),
          l.foldl (fun a e => assocAdd a e.1 e.2.total e.2.covered e.2.files)
            (assocAdd acc k agg.total agg.covered agg.files) =
          mergeResults (assocAdd acc k agg.total agg.covered agg.files) l
        from fun l => rfl]
    rw [ih _ _ (keysOf_nodup_assocAdd _ _ _ _ _ hnd),
        pkgFiles_assocAdd _ _ _ _ _ _ hnd, pkgFiles_cons, List.append_assoc]

theorem pkgTotal_allResults (reports : List Report) (q : String) :
    pkgTotal (allResults reports) q =
      (reports.map (fun r => pkgTotal (analyze_coverage r none) q)).sum := by
  have main : ∀ (rs : List Report) (acc : List (String × PkgAgg)),
      pkgTotal (rs.foldl (fun a rep => mergeResults a (analyze_coverage rep none)) acc) q =
        pkgTotal acc q + (rs.map (fun r => pkgTotal (analyze_coverage r none) q)).sum := by
    intro rs
    induction rs with
    | nil => intro acc; simp only [List.foldl_nil, List.map_nil, List.sum_nil]; omega
    | cons r rest ih =>
      intro acc
      rw [List.foldl_cons, ih, pkgTotal_mergeResults]
      simp only [List.map_cons, List.sum_cons]
      omega
  rw [allResults, main]
  have h0 : pkgTotal [] q = 0 := rfl
  rw [h0]
  omega

theorem pkgCovered_allResults (reports : List Report) (q : String) :
    pkgCovered (allResults reports) q =
      (reports.map (fun r => pkgCovered (analyze_coverage r none) q)).sum := by
  have main : ∀ (rs : List Report) (acc : List (String × PkgAgg)),
      pkgCovered (rs.foldl (fun a rep => mergeResults a (analyze_coverage rep none)) acc) q =
        pkgCovered acc q + (rs.map (fun r => pkgCovered (analyze_coverage r none) q)).sum := by
    intro rs
    induction rs with
    | nil => intro acc; simp only [List.foldl_nil, List.map_nil, List.sum_nil]; omega
    | cons r rest ih =>
      intro acc
      rw [List.foldl_cons, ih, pkgCovered_mergeResults]
      simp only [List.map_cons, List.sum_cons]
      omega
  rw [allResults, main]
  have h0 : pkgCovered [] q = 0 := rfl
  rw [h0]
  omega

theorem pkgFiles_allResults (reports : List Report) (q : String) :
    pkgFiles (allResults reports) q =
      (reports.map (fun r => pkgFiles (analyze_coverage r none) q)).flatten := by
  have main : ∀ (rs : List Report) (acc : List (String × PkgAgg)),
      (keysOf acc).Nodup →
      pkgFiles (rs.foldl (fun a rep => mergeResults a (analyze_coverage rep none)) acc) q =
        pkgFiles acc q ++ (rs.map (fun r => pkgFiles (analyze_coverage r none) q)).flatten := by
    intro rs
    induction rs with
    | nil => intro acc _; simp
    | cons r rest ih =>
      intro acc hnd
      rw [List.foldl_cons, ih _ (keysOf_nodup_mergeResults _ _ hnd),
          pkgFiles_mergeResults _ _ _ hnd]
      simp
  rw [allResults, main _ _ (by simp [keysOf])]
  have h0 : pkgFiles [] q = [] := rfl
  rw [h0, List.nil_append]

theorem sumOf_flatten (ν : FileRec → Nat) :
    ∀ (L : List (List FileRec)) (n : String),
      sumOf ν L.flatten n = (L.map (fun l => sumOf ν l n)).sum := by
  intro L
  induction L with
  | nil => intro n; rfl
  | cons l ls ih =>
    intro n
    rw [List.flatten_cons, sumOf_append, List.map_cons, List.sum_cons, ih]

theorem mergeCounts_total (g f : FileRec) :
    (mergeCounts g f).total = g.total + f.total := rfl

theorem mergeCounts_covered (g f : FileRec) :
    (mergeCounts g f).covered = g.covered + f.covered := rfl

theorem mergeCounts_uncovered (g f : FileRec) :
    (mergeCounts g f).uncovered = g.uncovered + f.uncovered := rfl

/-- The merged per-file aggregates keep every per-name sum of the recorded
occurrences: pre-sorting is a permutation and the dedup merge adds counts. -/
theorem sumOf_fileAgg (ν : FileRec → Nat)
    (hν : ∀ g f, ν (mergeCounts g f) = ν g + ν f)
    (l : List FileRec) (n : String) :
    sumOf ν (fileAgg l) n = sumOf ν l n := by
  rw [fileAgg, sumOf_dedup ν hν, sortU]
  exact sumOf_perm ν (List.perm_insertionSort uncGE l) n

/-- C1 counterexample: run `analyze_all_coverage` on the spec's own
scenario — one input whose `A.cs` is 10/10 and one whose `A.cs` is 10/5.
The claim says the merged `A.cs` aggregate has total 20 and covered 15;
the program records a file entry only when `total > covered`, so the
fully covered occurrence is never recorded and the merged aggregate is
total 10, covered 5. -/
theorem C1_counterexample :
    totalOf (fileAgg (pkgFiles (allResults [exRepFull, exRepHalf]) "Sample")) "A.cs" = 10 ∧
    coveredOf (fileAgg (pkgFiles (allResults [exRepFull, exRepHalf]) "Sample")) "A.cs" = 5 ∧
    ¬ (totalOf (fileAgg (pkgFiles (allResults [exRepFull, exRepHalf]) "Sample")) "A.cs" = 20 ∧
       coveredOf (fileAgg (pkgFiles (allResults [exRepFull, exRepHalf]) "Sample")) "A.cs" = 15) := by
  refine ⟨rfl, rfl, fun hc => ?_⟩
  have h10 : totalOf (fileAgg (pkgFiles (allResults [exRepFull, exRepHalf]) "Sample")) "A.cs" = 10 := rfl
  obtain ⟨h1, h2⟩ := hc
  omega

/-- C1 amended: duplicate base filenames are merged by summation, but the
sums range over the *recorded* occurrences only — occurrences a class
contributes only when `total > covered` — so on the two-file `Sample`
scenario the merged `A.cs` aggregate is total=10, covered=15 minus the
dropped fully-covered half: total=10, covered=5, uncovered=5. -/
theorem C1_merge_sums_recorded :
    (∀ (l : List FileRec) (n : String),
      totalOf (fileAgg l) n = totalOf l n ∧
      coveredOf (fileAgg l) n = coveredOf l n ∧
      uncoveredOf (fileAgg l) n = uncoveredOf l n) ∧
    totalOf (fileAgg (pkgFiles (allResults [exRepFull, exRepHalf]) "Sample")) "A.cs" = 10 ∧
    coveredOf (fileAgg (pkgFiles (allResults [exRepFull, exRepHalf]) "Sample")) "A.cs" = 5 ∧
    uncoveredOf (fileAgg (pkgFiles (allResults [exRepFull, exRepHalf]) "Sample")) "A.cs" = 5 := by
  refine ⟨fun l n => ⟨?_, ?_, ?_⟩, rfl, rfl, rfl⟩
  · exact sumOf_fileAgg _ (fun g f => mergeCounts_total g f) l n
  · exact sumOf_fileAgg _ (fun g f => mergeCounts_covered g f) l n
  · exact sumOf_fileAgg _ (fun g f => mergeCounts_uncovered g f) l n

/-- C7: merging is order-invariant — for permuted lists of input reports
every assembly's summed total and covered counts, and every merged
per-file aggregate's total/covered/uncovered counts, coincide. -/
theorem C7_order_invariant {r1 r2 : List Report} (h : r1.Perm r2)
    (q n : String) :
    pkgTotal (allResults r1) q = pkgTotal (allResults r2) q ∧
    pkgCovered (allResults r1) q = pkgCovered (allResults r2) q ∧
    totalOf (fileAgg (pkgFiles (allResults r1) q)) n =
      totalOf (fileAgg (pkgFiles (allResults r2) q)) n ∧
    coveredOf (fileAgg (pkgFiles (allResults r1) q)) n =
      coveredOf (fileAgg (pkgFiles (allResults r2) q)) n ∧
    uncoveredOf (fileAgg (pkgFiles (allResults r1) q)) n =
      uncoveredOf (fileAgg (pkgFiles (allResults r2) q)) n := by
  have hfile : ∀ (ν : FileRec → Nat),
      (∀ g f, ν (mergeCounts g f) = ν g + ν f) →
      sumOf ν (fileAgg (pkgFiles (allResults r1) q)) n =
        sumOf ν (fileAgg (pkgFiles (allResults r2) q)) n := by
    intro ν hν
    rw [sumOf_fileAgg ν hν, sumOf_fileAgg ν hν,
        pkgFiles_allResults, pkgFiles_allResults,
        sumOf_flatten, sumOf_flatten, List.map_map, List.map_map]
    exact (h.map _).sum_eq
  refine ⟨?_, ?_, hfile _ mergeCounts_total, hfile _ mergeCounts_covered,
    hfile _ mergeCounts_uncovered⟩
  · rw [pkgTotal_allResults, pkgTotal_allResults]
    exact (h.map _).sum_eq
  · rw [pkgCovered_allResults, pkgCovered_allResults]
    exact (h.map _).sum_eq

/-- Witness for C7 at a concrete pair of permuted report lists. -/
theorem C7_order_invariant_witness :
    pkgTotal (allResults [exRepFull, exRepHalf]) "Sample" =
      pkgTotal (allResults [exRepHalf, exRepFull]) "Sample" ∧
    totalOf (fileAgg (pkgFiles (allResults [exRepFull, exRepHalf]) "Sample")) "A.cs" =
      totalOf (fileAgg (pkgFiles (allResults [exRepHalf, exRepFull]) "Sample")) "A.cs" := by
  have h := C7_order_invariant
    (List.Perm.swap exRepHalf exRepFull []) "Sample" "A.cs"
  exact ⟨h.1, h.2.2.1⟩

theorem checkStep_foldl :
    ∀ (files : List (String × FileData)) (o : CheckOut),
      files.foldl checkStep o =
        ⟨o.rows ++ files.filterMap goodRow,
         o.errors ++ (files.filter (fun pf => !(isGood pf.2))).map (fun pf => pf.1)⟩ := by
  intro files
  induction files with
  | nil => intro o; simp
  | cons pf rest ih =>
    intro o
    obtain ⟨path, fd⟩ := pf
    cases fd <;>
      simp [checkStep, ih, goodRow, isGood, List.filter_cons, List.filterMap_cons]

theorem collectReports_malformed :
    ∀ (fds : List FileData), FileData.malformed ∈ fds →
      collectReports fds = .error () := by
  intro fds h
  induction fds with
  | nil => cases h
  | cons fd rest ih =>
    cases fd with
    | absent =>
      rcases List.mem_cons.mp h with h1 | h1
      · cases h1
      · rw [collectReports]; exact ih h1
    | malformed => rfl
    | good r =>
      rcases List.mem_cons.mp h with h1 | h1
      · cases h1
      · rw [collectReports, ih h1]; rfl

theorem collectReports_all_absent :
    ∀ (fds : List FileData), (∀ fd ∈ fds, fd = FileData.absent) →
      collectReports fds = .ok [] := by
  intro fds h
  induction fds with
  | nil => rfl
  | cons fd rest ih =>
    have hfd : fd = FileData.absent := h fd (List.mem_cons_self _ _)
    subst hfd
    rw [collectReports]
    exact ih (fun x hx => h x (List.mem_cons_of_mem _ hx))

/-- C2 counterexample: one valid input followed by one unparsable input —
`analyze_all_coverage.py` has no `try` around `ET.parse`, so the parse
error aborts the whole run instead of skipping the bad file. -/
theorem C2_counterexample :
    analyzeAllMain [FileData.good exRepFull, FileData.malformed] = .error () := rfl

/-- C2 amended: only `check_coverage.py` (and `check_coverage_detailed.py`)
catch parse errors at the per-file boundary — every failed file produces
an error message naming its path and every valid file still contributes
its row; in `analyze_all_coverage.py` (and `analyze_core_detailed.py`) an
unparsable input aborts the entire run. -/
theorem C2_per_file_error_handling :
    (∀ files : List (String × FileData),
      (check_coverage files).errors =
        (files.filter (fun pf => !(isGood pf.2))).map (fun pf => pf.1)) ∧
    (∀ files : List (String × FileData),
      (check_coverage files).rows.Perm (files.filterMap goodRow)) ∧
    (∀ fds : List FileData, FileData.malformed ∈ fds →
      analyzeAllMain fds = .error ()) ∧
    (∀ fd : FileData, isGood fd = false →
      analyze_core_detailed_run fd = .error ()) := by
  refine ⟨?_, ?_, ?_, ?_⟩
  · intro files
    rw [check_coverage, checkStep_foldl]
    simp
  · intro files
    rw [check_coverage, checkStep_foldl]
    simp only [List.nil_append]
    exact List.perm_insertionSort checkLE _
  · intro fds h
    rw [analyzeAllMain, collectReports_malformed fds h]
    rfl
  · intro fd h
    cases fd with
    | absent => rfl
    | malformed => rfl
    | good r => simp [isGood] at h

/-- Witness for C2 at a concrete input list containing a parse failure. -/
theorem C2_witness :
    FileData.malformed ∈ [FileData.good exRepFull, FileData.malformed] ∧
    analyzeAllMain [FileData.good exRepFull, FileData.malformed] = .error () :=
  have hm : FileData.malformed ∈ [FileData.good exRepFull, FileData.malformed] :=
    List.mem_cons_of_mem _ (List.mem_cons_self _ _)
  ⟨hm, C2_per_file_error_handling.2.2.1 _ hm⟩

/-- C3 counterexample: `find_uncovered.py` calls `ET.parse` on its path
argument with no existence check and no handler, so a missing file raises
instead of yielding an empty result. -/
theorem C3_counterexample :
    find_uncovered FileData.absent "KeenEyes.Network.Abstractions" = .error () ∧
    ¬ ∃ out, find_uncovered FileData.absent "KeenEyes.Network.Abstractions" = .ok out := by
  refine ⟨rfl, ?_⟩
  rintro ⟨out, h⟩
  cases h

/-- C3 amended: the loaders of `analyze_all_coverage.py` and
`analyze_project_coverage.py` return `None` for a nonexistent path, so
their multi-file runs continue; `find_uncovered.py` raises on a
nonexistent path. -/
theorem C3_missing_file_handling :
    (∀ filt, analyzeCoverageFile FileData.absent filt = .ok none) ∧
    (∀ t, analyze_project_coverage FileData.absent t = .ok none) ∧
    (∀ t, find_uncovered FileData.absent t = .error ()) :=
  ⟨fun _ => rfl, fun _ => rfl, fun _ => rfl⟩

/-- C4: the guarded percentage `(covered / total * 100) if total > 0 else 0`
is always in [0, 100] (given `covered ≤ total`) and is 0 at `total = 0`;
but the overall line of `analyze_core_detailed.py` divides with no guard
and is undefined (raises `ZeroDivisionError`) on a report whose included
packages have no lines. -/
theorem C4_percentage_definedness :
    (∀ covered total : Nat, covered ≤ total →
      0 ≤ pct covered total ∧ pct covered total ≤ 100 ∧
      (total = 0 → pct covered total = 0)) ∧
    analyze_core_detailed_overall ⟨1, []⟩ = none := by
  constructor
  · intro c t hct
    by_cases ht : 0 < t
    · refine ⟨?_, ?_, fun h0 => absurd h0 (by omega)⟩
      · rw [pct, if_pos ht]
        positivity
      · rw [pct, if_pos ht]
        have htQ : (0 : ℚ) < (t : ℚ) := by exact_mod_cast ht
        have hle : (c : ℚ) ≤ (t : ℚ) := by exact_mod_cast hct
        have hdiv : (c : ℚ) / (t : ℚ) ≤ 1 := (div_le_one htQ).mpr hle
        nlinarith
    · refine ⟨?_, ?_, fun _ => ?_⟩ <;> rw [pct, if_neg ht] <;> norm_num
  · rfl

/-- Witness for C4 at concrete counts. -/
theorem C4_percentage_witness :
    5 ≤ 10 ∧ (0 ≤ pct 5 10 ∧ pct 5 10 ≤ 100 ∧ (10 = 0 → pct 5 10 = 0)) :=
  ⟨by omega, C4_percentage_definedness.1 5 10 (by omega)⟩

/-- C8 counterexample: with no input files `analyze_all_coverage.py` does
not report a distinct "nothing to report" condition — it prints the normal
summary frame with zero rows and an all-zero `OVERALL 0.0% 0/0` line; and
when every matched file is unparsable it crashes (uncaught parse error)
rather than reporting anything. -/
theorem C8_counterexample :
    analyzeAllMain [] = .ok ⟨[], 0, 0, 0, []⟩ ∧
    analyzeAllMain [FileData.malformed] = .error () :=
  ⟨rfl, rfl⟩

/-- C8 amended: on empty (or all-missing) input `analyze_all_coverage.py`
does not crash and prints the summary with no assembly rows and an
all-zero OVERALL line — there is no distinct empty-result condition; on
all-unparsable input `check_coverage.py` prints one error line per file
and an empty table, while `analyze_all_coverage.py` aborts. -/
theorem C8_empty_input_behavior :
    (∀ fds : List FileData, (∀ fd ∈ fds, fd = FileData.absent) →
      analyzeAllMain fds = .ok ⟨[], 0, 0, 0, []⟩) ∧
    (∀ files : List (String × FileData), (∀ pf ∈ files, isGood pf.2 = false) →
      (check_coverage files).rows = [] ∧
      (check_coverage files).errors = files.map (fun pf => pf.1)) := by
  constructor
  · intro fds h
    rw [analyzeAllMain, collectReports_all_absent fds h]
    rfl
  · intro files h
    have hfm : files.filterMap goodRow = [] := by
      induction files with
      | nil => rfl
      | cons pf rest ih =>
        have hpf : isGood pf.2 = false := h pf (List.mem_cons_self _ _)
        have hrest := ih (fun x hx => h x (List.mem_cons_of_mem _ hx))
        obtain ⟨path, fd⟩ := pf
        cases fd with
        | absent => simpa [List.filterMap_cons, goodRow] using hrest
        | malformed => simpa [List.filterMap_cons, goodRow] using hrest
        | good r => simp [isGood] at hpf
    have hfl : files.filter (fun pf => !(isGood pf.2)) = files :=
      List.filter_eq_self.mpr (fun pf hpf => by rw [h pf hpf]; rfl)
    constructor
    · rw [check_coverage, checkStep_foldl]
      simp [hfm]
    · rw [check_coverage, checkStep_foldl]
      simp [hfl]

/-- Witness for C8 at concrete all-missing and all-unparsable inputs. -/
theorem C8_empty_input_witness :
    analyzeAllMain [FileData.absent] = .ok ⟨[], 0, 0, 0, []⟩ ∧
    (check_coverage [("tests/x/coverage.xml", FileData.malformed)]).rows = [] ∧
    (check_coverage [("tests/x/coverage.xml", FileData.malformed)]).errors =
      ["tests/x/coverage.xml"] := by
  have h1 := C8_empty_input_behavior.1 [FileData.absent]
    (fun fd hfd => List.mem_singleton.mp hfd)
  have h2 := C8_empty_input_behavior.2 [("tests/x/coverage.xml", FileData.malformed)]
    (fun pf hpf => by rw [List.mem_singleton.mp hpf]; rfl)
  exact ⟨h1, h2.1, by rw [h2.2]; rfl⟩

theorem pkgIncluded_of_tests (filt : Option String) (name : String)
    (h : strContains name "Tests" = true) : pkgIncluded filt name = false := by
  simp [pkgIncluded, h]

theorem projIncluded_of_tests (target name : String)
    (h : strContains name "Tests" = true) : projIncluded target name = false := by
  simp [projIncluded, h]

theorem findUncStep_rec (acc : List UncClass) (cls : ClassCov)
    (h1 : 0 < cls.lines.length)
    (h2 : ((coveredCount cls.lines : ℚ) / (cls.lines.length : ℚ)) * 100 < 100) :
    findUncStep acc cls =
      acc ++ [⟨cls.name, shortFileOf cls.filename,
               ((coveredCount cls.lines : ℚ) / (cls.lines.length : ℚ)) * 100,
               coveredCount cls.lines, cls.lines.length,
               cls.lines.length - coveredCount cls.lines,
               ((cls.lines.filter (fun l => decide (l.hits = 0))).map
                 (fun l => l.number))⟩] := by
  rw [findUncStep, if_pos h1, if_pos h2]

/-- C5 counterexample: `find_uncovered.py` selects packages by exact name
equality with its target argument and applies no test-assembly exclusion,
so a package whose name contains `Tests` is printed — classes and all —
when it is the configured target. -/
theorem C5_counterexample :
    strContains "KeenEyes.Core.Tests" "Tests" = true ∧
    (find_uncovered (FileData.good exTestsRep) "KeenEyes.Core.Tests").map
        (fun out => out.map (fun e => (e.1, e.2.map (fun u => u.clsName)))) =
      .ok [("KeenEyes.Core.Tests", ["TestsA"])] := by
  refine ⟨rfl, ?_⟩
  have hstep := findUncStep_rec [] ⟨"TestsA", "Foo.cs", [⟨1, 0⟩, ⟨2, 1⟩]⟩
    (by norm_num) (by norm_num [coveredCount])
  have hpkg : (find_uncovered_pkg exTestsPkg).map (fun u => u.clsName) = ["TestsA"] := by
    rw [find_uncovered_pkg]
    rw [show exTestsPkg.classes = [⟨"TestsA", "Foo.cs", [⟨1, 0⟩, ⟨2, 1⟩]⟩] from rfl,
        List.foldl_cons, List.foldl_nil, hstep]
    rfl
  rw [show find_uncovered (FileData.good exTestsRep) "KeenEyes.Core.Tests" =
      .ok [("KeenEyes.Core.Tests", find_uncovered_pkg exTestsPkg)] from rfl]
  show Except.ok [("KeenEyes.Core.Tests",
    (find_uncovered_pkg exTestsPkg).map (fun u => u.clsName))] = _
  rw [hpkg]

/-- C5 amended: `analyze_all_coverage.py` and `analyze_project_coverage.py`
exclude every package whose name contains `Tests` from all aggregation
(removing such packages from the input changes nothing), and
`check_coverage_detailed.py` excludes packages containing `.Tests`;
`find_uncovered.py` applies no such exclusion. -/
theorem C5_tests_excluded :
    (∀ (rep : Report) (filt : Option String),
      analyze_coverage (dropTests rep) filt = analyze_coverage rep filt) ∧
    (∀ (rep : Report) (t : String),
      analyze_project_coverage (FileData.good (dropTests rep)) t =
        analyze_project_coverage (FileData.good rep) t) ∧
    (∀ files : List (String × FileData),
      check_coverage_detailed (files.map (fun pf => (pf.1, dropDotTests pf.2))) =
        check_coverage_detailed files) := by
  refine ⟨?_, ?_, ?_⟩
  · intro rep filt
    rw [analyze_coverage, analyze_coverage, dropTests]
    have main : ∀ (pkgs : List Package) (res : List (String × PkgAgg)),
        (pkgs.filter (fun p => !(strContains p.name "Tests"))).foldl
            (fun res pkg =>
              if pkgIncluded filt pkg.name then
                pkg.classes.foldl (addClass pkg.name) res
              else res) res =
          pkgs.foldl
            (fun res pkg =>
              if pkgIncluded filt pkg.name then
                pkg.classes.foldl (addClass pkg.name) res
              else res) res := by
      intro pkgs
      induction pkgs with
      | nil => intro res; rfl
      | cons p ps ih =>
        intro res
        by_cases hp : strContains p.name "Tests" = true
        · rw [List.filter_cons, List.foldl_cons]
          simp only [hp, Bool.not_true, Bool.false_eq_true, if_false,
            pkgIncluded_of_tests filt p.name hp, ite_false]
          exact ih res
        · rw [List.filter_cons, List.foldl_cons]
          simp only [Bool.not_eq_true] at hp
          simp only [hp, Bool.not_false, if_true, List.foldl_cons]
          exact ih _
    exact main rep.packages []
  · intro rep t
    rw [analyze_project_coverage, analyze_project_coverage]
    have main : ∀ (pkgs : List Package) (a : ProjAcc),
        (pkgs.filter (fun p => !(strContains p.name "Tests"))).foldl
            (fun a pkg =>
              if projIncluded t pkg.name then pkg.classes.foldl projClass a else a) a =
          pkgs.foldl
            (fun a pkg =>
              if projIncluded t pkg.name then pkg.classes.foldl projClass a else a) a := by
      intro pkgs
      induction pkgs with
      | nil => intro a; rfl
      | cons p ps ih =>
        intro a
        by_cases hp : strContains p.name "Tests" = true
        · rw [List.filter_cons, List.foldl_cons]
          simp only [hp, Bool.not_true, Bool.false_eq_true, if_false,
            projIncluded_of_tests t p.name hp, ite_false]
          exact ih a
        · rw [List.filter_cons, List.foldl_cons]
          simp only [Bool.not_eq_true] at hp
          simp only [hp, Bool.not_false, if_true, List.foldl_cons]
          exact ih _
    rw [show (dropTests rep).packages =
        rep.packages.filter (fun p => !(strContains p.name "Tests")) from rfl]
    rw [main rep.packages ⟨0, 0, []⟩]
  · intro files
    rw [check_coverage_detailed, check_coverage_detailed, List.map_map]
    refine List.map_congr_left ?_
    intro pf _
    obtain ⟨path, fd⟩ := pf
    cases fd with
    | absent => rfl
    | malformed => rfl
    | good rep =>
      have harg : ∀ pkgs : List Package,
          (pkgs.filter (fun p => !(strContains p.name ".Tests"))).filter
              (fun p => ccdIncluded p.name) =
            pkgs.filter (fun p => ccdIncluded p.name) := by
        intro pkgs
        induction pkgs with
        | nil => rfl
        | cons p ps ih =>
          by_cases h2 : strContains p.name ".Tests" = true
          · have hc : ccdIncluded p.name = false := by simp [ccdIncluded, h2]
            simp [List.filter_cons, h2, hc, ih]
          · simp only [Bool.not_eq_true] at h2
            simp [List.filter_cons, h2, ih]
      simp only [Function.comp_apply, dropDotTests]
      rw [harg rep.packages]

/-- C6 counterexample: the program sorts only by `-uncovered`; two files
tied at 5 uncovered lines with coverages 80 and 50 stay in insertion
order, so the displayed list is *not* ordered by the spec's claimed
coverage-ascending tie-break (which would put the 50% file first). -/
theorem C6_counterexample :
    detailFiles [exF80, exF50] = [exF80, exF50] ∧
    ¬ List.Pairwise specDetailOrder (detailFiles [exF80, exF50]) := by
  refine ⟨rfl, ?_⟩
  intro h
  rw [show detailFiles [exF80, exF50] = [exF80, exF50] from rfl] at h
  rcases List.pairwise_cons.mp h with ⟨hrel, _⟩
  rcases hrel exF50 (List.mem_cons_self _ _) with h5 | ⟨_, hle⟩
  · simp [exF80, exF50] at h5
  · norm_num [exF80, exF50] at hle

/-- C6 amended: the detail files are sorted descending by uncovered count
only; the sort is stable — entries with equal uncovered counts keep their
input order regardless of coverage — and so is the displayed (deduped,
re-sorted, top-10) list. -/
theorem C6_sort_descending_stable :
    ∀ l : List FileRec,
      (sortU l).Perm l ∧
      List.Pairwise uncGE (sortU l) ∧
      (∀ k : Nat, (sortU l).filter (fun g => g.uncovered == k) =
        l.filter (fun g => g.uncovered == k)) ∧
      List.Pairwise uncGE (detailFiles l) := by
  intro l
  refine ⟨List.perm_insertionSort uncGE l, List.sorted_insertionSort uncGE l,
    filterK_sortU l, ?_⟩
  have hs : List.Pairwise uncGE (sortU (fileAgg l)) :=
    List.sorted_insertionSort uncGE _
  exact List.Pairwise.sublist (List.take_sublist _ _) hs

/-! ### Membership preservation through the dedup merges -/
theorem mem_addSeen_preserve (P : FileRec → Prop)
    (hP : ∀ g f, P g → P f → P (mergeCounts g f)) :
    ∀ (acc : List FileRec) (f : FileRec), (∀ x ∈ acc, P x) → P f →
      ∀ x ∈ addSeen acc f, P x := by
  intro acc
  induction acc with
  | nil =>
    intro f _ hf x hx
    rcases List.mem_singleton.mp hx with rfl
    exact hf
  | cons g gs ih =>
    intro f hacc hf x hx
    by_cases hg : g.name = f.name
    · rw [addSeen, if_pos hg] at hx
      rcases List.mem_cons.mp hx with rfl | hx
      · exact hP g f (hacc g (List.mem_cons_self _ _)) hf
      · exact hacc x (List.mem_cons_of_mem _ hx)
    · rw [addSeen, if_neg hg] at hx
      rcases List.mem_cons.mp hx with rfl | hx
      · exact hacc x (List.mem_cons_self _ _)
      · exact ih f (fun y hy => hacc y (List.mem_cons_of_mem _ hy)) hf x hx

theorem mem_dedup_preserve (P : FileRec → Prop)
    (hP : ∀ g f, P g → P f → P (mergeCounts g f)) :
    ∀ (l acc : List FileRec), (∀ x ∈ acc, P x) → (∀ x ∈ l, P x) →
      ∀ x ∈ l.foldl addSeen acc, P x := by
  intro l
  induction l with
  | nil => intro acc hacc _ x hx; exact hacc x hx
  | cons f fs ih =>
    intro acc hacc hl x hx
    rw [List.foldl_cons] at hx
    exact ih (addSeen acc f)
      (mem_addSeen_preserve P hP acc f hacc (hl f (List.mem_cons_self _ _)))
      (fun y hy => hl y (List.mem_cons_of_mem _ hy)) x hx

theorem mem_fileAgg_preserve (P : FileRec → Prop)
    (hP : ∀ g f, P g → P f → P (mergeCounts g f))
    (l : List FileRec) (hl : ∀ x ∈ l, P x) :
    ∀ x ∈ fileAgg l, P x := by
  intro x hx
  have hsort : ∀ y ∈ sortU l, P y := by
    intro y hy
    exact hl y ((List.perm_insertionSort uncGE l).subset hy)
  exact mem_dedup_preserve P hP (sortU l) [] (fun y hy => absurd hy (List.not_mem_nil y))
    hsort x hx

/-- Every file record produced by `analyze_coverage` was recorded with
`covered < total` and `uncovered = total - covered`. -/
theorem pkgFiles_analyze_rec (rep : Report) (filt : Option String) :
    ∀ (q : String) (f : FileRec), f ∈ pkgFiles (analyze_coverage rep filt) q →
      f.covered < f.total ∧ f.uncovered = f.total - f.covered := by
  rw [analyze_coverage]
  have main := @foldl_preserve Package (List (String × PkgAgg))
    (fun res pkg =>
      if pkgIncluded filt pkg.name then
        pkg.classes.foldl (addClass pkg.name) res
      else res)
    (fun res => (keysOf res).Nodup ∧
      ∀ (q : String) (f : FileRec), f ∈ pkgFiles res q →
        f.covered < f.total ∧ f.uncovered = f.total - f.covered)
    ?_ rep.packages [] ⟨List.nodup_nil, ?_⟩
  · exact main.2
  · intro res pkg hres
    dsimp only
    split
    · refine @foldl_preserve ClassCov (List (String × PkgAgg))
        (addClass pkg.name)
        (fun res => (keysOf res).Nodup ∧
          ∀ (q : String) (f : FileRec), f ∈ pkgFiles res q →
            f.covered < f.total ∧ f.uncovered = f.total - f.covered)
        ?_ pkg.classes res hres
      intro res2 cls hres2
      rw [addClass]
      split
      · exact hres2
      · refine ⟨keysOf_nodup_assocAdd _ _ _ _ _ hres2.1, ?_⟩
        intro q f hf
        rw [pkgFiles_assocAdd _ _ _ _ _ _ hres2.1] at hf
        rcases List.mem_append.mp hf with hf | hf
        · exact hres2.2 q f hf
        · split at hf
          · split at hf
            · rcases List.mem_singleton.mp hf with rfl
              rename_i hcov _
              exact ⟨hcov, rfl⟩
            · exact absurd hf (List.not_mem_nil f)
          · exact absurd hf (List.not_mem_nil f)
    · exact hres
  · intro q f hf
    exact absurd hf (List.not_mem_nil f)

/-- The recording invariant (`covered < total`, `uncovered = total −
covered`) is preserved by the dedup merge. -/
theorem mergeCounts_preserves_rec (g f : FileRec)
    (hg : g.covered < g.total ∧ g.uncovered = g.total - g.covered)
    (hf : f.covered < f.total ∧ f.uncovered = f.total - f.covered) :
    (mergeCounts g f).covered < (mergeCounts g f).total ∧
      (mergeCounts g f).uncovered = (mergeCounts g f).total - (mergeCounts g f).covered := by
  rw [mergeCounts]
  refine ⟨Nat.add_lt_add hg.1 hf.1, ?_⟩
  have h1 := hg.1
  have h2 := hf.1
  have h3 := hg.2
  have h4 := hf.2
  simp only
  omega

/-- Every file in an assembly's displayed detail list satisfies the
recording invariant. -/
theorem detailFiles_mem_rec (reports : List Report) (q : String)
    (f : FileRec) (hf : f ∈ detailFiles (pkgFiles (allResults reports) q)) :
    f.covered < f.total ∧ f.uncovered = f.total - f.covered := by
  have hbase : ∀ x ∈ pkgFiles (allResults reports) q,
      x.covered < x.total ∧ x.uncovered = x.total - x.covered := by
    intro x hx
    rw [pkgFiles_allResults] at hx
    rcases List.mem_flatten.mp hx with ⟨li, hli, hxli⟩
    rcases List.mem_map.mp hli with ⟨r, _, rfl⟩
    exact pkgFiles_analyze_rec r none q x hxli
  have hagg : ∀ x ∈ fileAgg (pkgFiles (allResults reports) q),
      x.covered < x.total ∧ x.uncovered = x.total - x.covered :=
    mem_fileAgg_preserve _ mergeCounts_preserves_rec _ hbase
  have hsorted := (List.take_subset 10 _) hf
  exact hagg f ((List.perm_insertionSort uncGE _).subset hsorted)

theorem pkgFiles_addClass (p : String) (res : List (String × PkgAgg))
    (c : ClassCov) (q : String) (h : (keysOf res).Nodup) :
    pkgFiles (addClass p res c) q = pkgFiles res q ++ addClassDelta p c q := by
  rw [addClass, addClassDelta]
  split
  · simp
  · rw [pkgFiles_assocAdd _ _ _ _ _ _ h]

theorem keysOf_nodup_addClass' (p : String) (res : List (String × PkgAgg))
    (c : ClassCov) (h : (keysOf res).Nodup) :
    (keysOf (addClass p res c)).Nodup :=
  keysOf_nodup_addClass p res c h

theorem addClass_sim :
    ∀ (cs : List ClassCov) (p : String) (res1 res2 : List (String × PkgAgg)),
      (keysOf res1).Nodup → (keysOf res2).Nodup →
      (∀ q, pkgFiles res1 q = pkgFiles res2 q) →
      ∀ q,
        pkgFiles
          ((cs.filter (fun c => decide (coveredCount c.lines < c.lines.length))).foldl
            (addClass p) res1) q =
        pkgFiles (cs.foldl (addClass p) res2) q := by
  intro cs
  induction cs with
  | nil => intro p res1 res2 _ _ hagree q; exact hagree q
  | cons c rest ih =>
    intro p res1 res2 h1 h2 hagree q
    by_cases hk : coveredCount c.lines < c.lines.length
    · rw [List.filter_cons,
        if_pos (show decide (coveredCount c.lines < c.lines.length) = true from
          decide_eq_true hk), List.foldl_cons, List.foldl_cons]
      refine ih p (addClass p res1 c) (addClass p res2 c)
        (keysOf_nodup_addClass p res1 c h1)
        (keysOf_nodup_addClass p res2 c h2) ?_ q
      intro q'
      rw [pkgFiles_addClass p res1 c q' h1, pkgFiles_addClass p res2 c q' h2,
        hagree q']
    · rw [List.filter_cons,
        if_neg (show ¬ decide (coveredCount c.lines < c.lines.length) = true from
          fun hc => hk (of_decide_eq_true hc)), List.foldl_cons]
      refine ih p res1 (addClass p res2 c) h1
        (keysOf_nodup_addClass p res2 c h2) ?_ q
      intro q'
      rw [pkgFiles_addClass p res2 c q' h2, hagree q']
      have hdelta : addClassDelta p c q' = [] := by
        simp only [addClassDelta, if_neg hk, ite_self]
      rw [hdelta, List.append_nil]

/-- Deleting fully covered (or empty) classes from a report changes no
per-assembly file list of `analyze_coverage`. -/
theorem analyze_dropFullyCovered (rep : Report) (filt : Option String)
    (q : String) :
    pkgFiles (analyze_coverage (dropFullyCovered rep) filt) q =
      pkgFiles (analyze_coverage rep filt) q := by
  rw [analyze_coverage, analyze_coverage]
  rw [show (dropFullyCovered rep).packages =
      rep.packages.map (fun p =>
        ⟨p.name, p.lineRate,
         p.classes.filter (fun c => decide (coveredCount c.lines < c.lines.length))⟩)
    from rfl]
  have main : ∀ (pkgs : List Package) (res1 res2 : List (String × PkgAgg)),
      (keysOf res1).Nodup → (keysOf res2).Nodup →
      (∀ q', pkgFiles res1 q' = pkgFiles res2 q') →
      pkgFiles
        ((pkgs.map (fun p =>
          (⟨p.name, p.lineRate,
            p.classes.filter (fun c => decide (coveredCount c.lines < c.lines.length))⟩ : Package))).foldl
          (fun res pkg =>
            if pkgIncluded filt pkg.name then
              pkg.classes.foldl (addClass pkg.name) res
            else res) res1) q =
      pkgFiles
        (pkgs.foldl
          (fun res pkg =>
            if pkgIncluded filt pkg.name then
              pkg.classes.foldl (addClass pkg.name) res
            else res) res2) q := by
    intro pkgs
    induction pkgs with
    | nil => intro res1 res2 _ _ hagree; exact hagree q
    | cons p ps ih =>
      intro res1 res2 h1 h2 hagree
      rw [List.map_cons, List.foldl_cons, List.foldl_cons]
      by_cases hinc : pkgIncluded filt p.name = true
      · simp only [hinc, if_true]
        refine ih _ _ ?_ ?_ ?_
        · exact @foldl_preserve ClassCov (List (String × PkgAgg)) (addClass p.name)
            (fun r => (keysOf r).Nodup)
            (fun r c hr => keysOf_nodup_addClass p.name r c hr) _ res1 h1
        · exact @foldl_preserve ClassCov (List (String × PkgAgg)) (addClass p.name)
            (fun r => (keysOf r).Nodup)
            (fun r c hr => keysOf_nodup_addClass p.name r c hr) p.classes res2 h2
        · exact addClass_sim p.classes p.name res1 res2 h1 h2 hagree
      · simp only [hinc, if_false]
        exact ih res1 res2 h1 h2 hagree
  exact main rep.packages [] [] List.nodup_nil List.nodup_nil (fun _ => rfl)

theorem mem_addSeenP_preserve (P : FileRecP → Prop)
    (hP : ∀ (g f : FileRecP), P g → P { g with uncovered := g.uncovered + f.uncovered }) :
    ∀ (acc : List FileRecP) (f : FileRecP), (∀ x ∈ acc, P x) → P f →
      ∀ x ∈ addSeenP acc f, P x := by
  intro acc
  induction acc with
  | nil =>
    intro f _ hf x hx
    rcases List.mem_singleton.mp hx with rfl
    exact hf
  | cons g gs ih =>
    intro f hacc hf x hx
    by_cases hg : g.name = f.name
    · rw [addSeenP, if_pos hg] at hx
      rcases List.mem_cons.mp hx with rfl | hx
      · exact hP g f (hacc g (List.mem_cons_self _ _))
      · exact hacc x (List.mem_cons_of_mem _ hx)
    · rw [addSeenP, if_neg hg] at hx
      rcases List.mem_cons.mp hx with rfl | hx
      · exact hacc x (List.mem_cons_self _ _)
      · exact ih f (fun y hy => hacc y (List.mem_cons_of_mem _ hy)) hf x hx

theorem mem_dedupP_preserve (P : FileRecP → Prop)
    (hP : ∀ (g f : FileRecP), P g → P { g with uncovered := g.uncovered + f.uncovered }) :
    ∀ (l acc : List FileRecP), (∀ x ∈ acc, P x) → (∀ x ∈ l, P x) →
      ∀ x ∈ l.foldl addSeenP acc, P x := by
  intro l
  induction l with
  | nil => intro acc hacc _ x hx; exact hacc x hx
  | cons f fs ih =>
    intro acc hacc hl x hx
    rw [List.foldl_cons] at hx
    exact ih (addSeenP acc f)
      (mem_addSeenP_preserve P hP acc f hacc (hl f (List.mem_cons_self _ _)))
      (fun y hy => hl y (List.mem_cons_of_mem _ hy)) x hx

/-- Every record in the accumulated `uncovered_files` of
`analyze_project_coverage` has at least one uncovered line. -/
theorem projAcc_files_pos (pkgs : List Package) (t : String) :
    ∀ x ∈ (pkgs.foldl
        (fun (a : ProjAcc) pkg =>
          if projIncluded t pkg.name then pkg.classes.foldl projClass a else a)
        (⟨0, 0, []⟩ : ProjAcc)).files, 1 ≤ x.uncovered := by
  have main := @foldl_preserve Package ProjAcc
    (fun a pkg =>
      if projIncluded t pkg.name then pkg.classes.foldl projClass a else a)
    (fun a => ∀ x ∈ a.files, 1 ≤ x.uncovered)
    ?_ pkgs ⟨0, 0, []⟩ ?_
  · exact main
  · intro a pkg ha
    dsimp only
    split
    · refine @foldl_preserve ClassCov ProjAcc projClass
        (fun a => ∀ x ∈ a.files, 1 ≤ x.uncovered) ?_ pkg.classes a ha
      intro a2 cls ha2
      rw [projClass]
      split
      · exact ha2
      · split
        · rename_i hfu
          intro x hx
          rcases List.mem_append.mp hx with hx | hx
          · exact ha2 x hx
          · rcases List.mem_singleton.mp hx with rfl
            exact hfu
        · exact ha2
    · exact ha
  · intro x hx
    exact absurd hx (List.not_mem_nil x)

/-- C9: a per-file entry is recorded only for class occurrences with at
least one uncovered line — every file in the displayed detail data has
`uncovered ≥ 1` (and `covered < total`), and deleting the fully covered
class occurrences from a report changes no per-assembly file list. -/
theorem C9_uncovered_only_recorded :
    (∀ (reports : List Report) (q : String) (f : FileRec),
      f ∈ detailFiles (pkgFiles (allResults reports) q) →
      1 ≤ f.uncovered ∧ f.covered < f.total) ∧
    (∀ (rep : Report) (filt : Option String) (q : String),
      pkgFiles (analyze_coverage (dropFullyCovered rep) filt) q =
        pkgFiles (analyze_coverage rep filt) q) ∧
    (∀ (fd : FileData) (t : String) (res : ProjResult),
      analyze_project_coverage fd t = .ok (some res) →
      ∀ f ∈ res.uncovered_files, 1 ≤ f.uncovered) := by
  refine ⟨?_, analyze_dropFullyCovered, ?_⟩
  · intro reports q f hf
    have h := detailFiles_mem_rec reports q f hf
    exact ⟨by omega, h.1⟩
  · intro fd t res h f hf
    cases fd with
    | absent => simp [analyze_project_coverage] at h
    | malformed => simp [analyze_project_coverage] at h
    | good rep =>
      rw [analyze_project_coverage] at h
      split at h
      · simp at h
      · rw [Except.ok.injEq, Option.some.injEq] at h
        subst h
        have hmem := (List.take_subset 5 _) hf
        have hmem2 := (List.perm_insertionSort uncGEP _).subset hmem
        refine mem_dedupP_preserve (fun x => 1 ≤ x.uncovered) ?_ _ []
          (fun y hy => absurd hy (List.not_mem_nil y))
          (projAcc_files_pos rep.packages t) f hmem2
        intro g f2 hg
        simp only
        omega

/-- Witness for C9 at the concrete two-report scenario. -/
theorem C9_uncovered_only_recorded_witness :
    1 ≤ (FileRec.mk "A.cs" 10 5 5 (pct 5 10)).uncovered ∧
    (FileRec.mk "A.cs" 10 5 5 (pct 5 10)).covered <
      (FileRec.mk "A.cs" 10 5 5 (pct 5 10)).total :=
  C9_uncovered_only_recorded.1 [exRepFull, exRepHalf] "Sample"
    (FileRec.mk "A.cs" 10 5 5 (pct 5 10))
    (List.mem_singleton.mpr rfl)

/-- C10: the dedup merges update only the count fields —
total/covered/uncovered become the sums (only uncovered in the
per-project variant) while the `coverage` field keeps the first-seen
occurrence's value and is never recomputed; the displayed detail entries
are exactly the merged records, so the stale percentage is what gets
printed (concretely: the merged `A.cs` has counts 20/14/6 but still
prints coverage 50, although 14/20 is 70%). -/
theorem C10_stale_coverage :
    (∀ (l : List FileRec) (n : String),
      covFirst (dedup l) n = covFirst l n ∧
      totalOf (dedup l) n = totalOf l n ∧
      coveredOf (dedup l) n = coveredOf l n ∧
      uncoveredOf (dedup l) n = uncoveredOf l n) ∧
    (∀ (l : List FileRecP) (n : String),
      covFirstP (dedupP l) n = covFirstP l n ∧
      uncOfP (dedupP l) n = uncOfP l n) ∧
    (∀ (l : List FileRec) (f : FileRec), f ∈ detailFiles l → f ∈ fileAgg l) ∧
    (covFirst (fileAgg [exG50, exG90]) "A.cs" = some 50 ∧
     totalOf (fileAgg [exG50, exG90]) "A.cs" = 20 ∧
     coveredOf (fileAgg [exG50, exG90]) "A.cs" = 14 ∧
     pct 14 20 ≠ 50) := by
  refine ⟨?_, ?_, ?_, rfl, rfl, rfl, ?_⟩
  · intro l n
    exact ⟨covFirst_dedup l n, sumOf_dedup _ mergeCounts_total l n,
      sumOf_dedup _ mergeCounts_covered l n,
      sumOf_dedup _ mergeCounts_uncovered l n⟩
  · intro l n
    exact ⟨covFirstP_dedupP l n, uncOfP_dedupP l n⟩
  · intro l f hf
    exact (List.perm_insertionSort uncGE _).subset ((List.take_subset 10 _) hf)
  · rw [pct]
    norm_num

/-- Witness for C10: the merged record, stale 50% and all, is in the
displayed list. -/
theorem C10_stale_coverage_witness :
    FileRec.mk "A.cs" 20 14 6 50 ∈ fileAgg [exG50, exG90] :=
  C10_stale_coverage.2.2.1 [exG50, exG90] (FileRec.mk "A.cs" 20 14 6 50)
    (List.mem_singleton.mpr rfl)
